import Mathlib

/-!
Verification development for the OpenTalaria protocol codec
(`protocol/begin_quorum_epoch_request.go`), broker listener validation
(`broker.go`) and security-protocol parsing (`utils`).

The message-level encode/decode functions are translated line by line from
the Go source.  Go values are modelled as follows: `int16`/`int32` fields
become `Int` (with explicit two's-complement reduction where they hit the
wire), Go `string` becomes its byte sequence `List Nat`, a Go pointer
`*string` becomes `Option (List Nat)`, and a Go slice becomes
`Option (List α)` so that the nil slice and a non-nil empty slice stay
distinguishable, as they are in Go.  Methods that mutate their pointer
receiver return the updated record next to their ordinary result.
-/

namespace Talaria

/-- Modelled from the spec: the error taxonomy of the codec layer
(`InsufficientData`, `MalformedLength`, `EncodeValueTooLarge`); the concrete
error values of the packetEncoder/packetDecoder implementation are not part
of the given source. -/
inductive CodecError where
  | InsufficientData
  | MalformedLength
  | EncodeValueTooLarge
deriving DecidableEq

/-- A wire byte sequence.  Bytes produced by the encoder are naturals below
256. -/
abbrev Bytes : Type := List Nat

/-- Decidable equality of codec results, so that concrete encode/decode
runs can be checked by `decide`. -/
instance instDecEqExcept {ε α : Type} [DecidableEq ε] [DecidableEq α] :
    DecidableEq (Except ε α) := fun a b =>
  match a, b with
  | .ok a, .ok b =>
    if h : a = b then isTrue (by rw [h]) else isFalse (by intro he; cases he; exact h rfl)
  | .error a, .error b =>
    if h : a = b then isTrue (by rw [h]) else isFalse (by intro he; cases he; exact h rfl)
  | .ok _, .error _ => isFalse (by intro h; cases h)
  | .error _, .ok _ => isFalse (by intro h; cases h)

/-- A Go slice value.  `none` is the nil slice, `some l` is a non-nil slice
with elements `l`.  Go distinguishes the two (`s == nil`,
`reflect.DeepEqual`), and the decoder below deliberately leaves a slice
field nil when the decoded element count is not positive, so the
distinction is kept in the model. -/
abbrev GoSlice (α : Type) : Type := Option (List α)

/-- `len` of a Go slice: the nil slice has length 0. -/
def goLen {α : Type} : GoSlice α → Nat
  | none => 0
  | some l => l.length

/-- Ranging over a Go slice: the nil slice yields no elements. -/
def goList {α : Type} : GoSlice α → List α
  | none => []
  | some l => l

/-- Modelled from the spec: the encoder writes big-endian fixed-width
integers; an `int16` is two bytes of the value reduced mod 2^16
(two's complement). -/
def putInt16 (x : Int) : Bytes :=
  let n : Nat := (x % 65536).toNat
  [n / 256 % 256, n % 256]

/-- Modelled from the spec: big-endian `int32`, four bytes of the value
reduced mod 2^32 (two's complement). -/
def putInt32 (x : Int) : Bytes :=
  let n : Nat := (x % 4294967296).toNat
  [n / 16777216 % 256, n / 65536 % 256, n / 256 % 256, n % 256]

/-- Modelled from the spec: a non-nullable string is an `int16` byte-length
followed by the bytes; a byte length that exceeds the 16-bit length-prefix
range is an encode failure (`EncodeValueTooLarge`). -/
def putString (s : Bytes) : Except CodecError Bytes :=
  if 32767 < s.length then .error .EncodeValueTooLarge
  else .ok (putInt16 (s.length : Int) ++ s)

/-- Modelled from the spec: a nullable string is encoded like a
non-nullable one, with the length prefix `-1` standing for the absent
value. -/
def putNullableString : Option Bytes → Except CodecError Bytes
  | none => .ok (putInt16 (-1))
  | some s => putString s

/-- Modelled from the spec: an array is prefixed by its `int32` element
count; a count that does not fit a 32-bit signed integer is an encode
failure. -/
def putArrayLength (n : Nat) : Except CodecError Bytes :=
  if 2147483647 < n then .error .EncodeValueTooLarge
  else .ok (putInt32 (n : Int))

/-- Modelled from the spec: every read first checks the remaining-byte
budget (`InsufficientData` past the end); an `int16` is read big-endian and
sign-extended. -/
def getInt16 : Bytes → Except CodecError (Int × Bytes)
  | b0 :: b1 :: rest =>
    let n : Nat := b0 * 256 + b1
    .ok (if n < 32768 then (n : Int) else (n : Int) - 65536, rest)
  | _ => .error .InsufficientData

/-- Modelled from the spec: big-endian sign-extended `int32` read with a
remaining-byte check. -/
def getInt32 : Bytes → Except CodecError (Int × Bytes)
  | b0 :: b1 :: b2 :: b3 :: rest =>
    let n : Nat := b0 * 16777216 + b1 * 65536 + b2 * 256 + b3
    .ok (if n < 2147483648 then (n : Int) else (n : Int) - 4294967296, rest)
  | _ => .error .InsufficientData

/-- Modelled from the spec: a non-nullable string read; the length prefix
must be non-negative (a negative length, the null sentinel included, is a
decode failure), and the payload read checks the remaining budget. -/
def getString (bs : Bytes) : Except CodecError (Bytes × Bytes) :=
  match getInt16 bs with
  | .error e => .error e
  | .ok (n, rest) =>
    if n < 0 then .error .MalformedLength
    else if rest.length < n.toNat then .error .InsufficientData
    else .ok (rest.take n.toNat, rest.drop n.toNat)

/-- Modelled from the spec: a nullable string read; length `-1` is the null
sentinel and yields the absent value, any other negative length is
`MalformedLength`. -/
def getNullableString (bs : Bytes) : Except CodecError (Option Bytes × Bytes) :=
  match getInt16 bs with
  | .error e => .error e
  | .ok (n, rest) =>
    if n = -1 then .ok (none, rest)
    else if n < 0 then .error .MalformedLength
    else if rest.length < n.toNat then .error .InsufficientData
    else .ok (some (rest.take n.toNat), rest.drop n.toNat)

/-- Modelled from the spec: an array-length read; `-1` is the null sentinel
and is returned as is (callers test the sign), any other negative count is
`MalformedLength`. -/
def getArrayLength (bs : Bytes) : Except CodecError (Int × Bytes) :=
  match getInt32 bs with
  | .error e => .error e
  | .ok (n, rest) =>
    if n < -1 then .error .MalformedLength
    else .ok (n, rest)

/-- PartitionData of a BeginQuorumEpochRequest, as in the Go source. -/
structure PartitionData_BeginQuorumEpochRequest where
  Version : Int
  PartitionIndex : Int
  LeaderID : Int
  LeaderEpoch : Int
deriving DecidableEq

/-- The Go zero value of a partition record (`var block PartitionData_...`). -/
def PartitionData_BeginQuorumEpochRequest.goZero : PartitionData_BeginQuorumEpochRequest :=
  ⟨0, 0, 0, 0⟩

/-- `func (p *PartitionData_BeginQuorumEpochRequest) encode(pe, version)`:
sets the receiver's Version, then writes the three `int32` fields.
`putInt32` cannot fail, so the Go function always returns nil; the updated
receiver is returned next to the bytes. -/
def PartitionData_BeginQuorumEpochRequest.encode
    (p : PartitionData_BeginQuorumEpochRequest) (version : Int) :
    PartitionData_BeginQuorumEpochRequest × Except CodecError Bytes :=
  let p := { p with Version := version }
  (p, .ok (putInt32 p.PartitionIndex ++ putInt32 p.LeaderID ++ putInt32 p.LeaderEpoch))

/-- `func (p *PartitionData_BeginQuorumEpochRequest) decode(pd, version)`:
sets the receiver's Version, then reads the three `int32` fields in order,
returning the first failure; the (possibly partially updated) receiver is
returned next to the remaining bytes or error. -/
def PartitionData_BeginQuorumEpochRequest.decode
    (p : PartitionData_BeginQuorumEpochRequest) (version : Int) (bs : Bytes) :
    PartitionData_BeginQuorumEpochRequest × Except CodecError Bytes :=
  let p := { p with Version := version }
  match getInt32 bs with
  | .error e => (p, .error e)
  | .ok (pidx, bs) =>
    let p := { p with PartitionIndex := pidx }
    match getInt32 bs with
    | .error e => (p, .error e)
    | .ok (lid, bs) =>
      let p := { p with LeaderID := lid }
      match getInt32 bs with
      | .error e => (p, .error e)
      | .ok (lep, bs) => ({ p with LeaderEpoch := lep }, .ok bs)

/-- TopicData of a BeginQuorumEpochRequest, as in the Go source. -/
structure TopicData_BeginQuorumEpochRequest where
  Version : Int
  TopicName : Bytes
  Partitions : GoSlice PartitionData_BeginQuorumEpochRequest
deriving DecidableEq

/-- The Go zero value of a topic record (`var block TopicData_...`). -/
def TopicData_BeginQuorumEpochRequest.goZero : TopicData_BeginQuorumEpochRequest :=
  ⟨0, [], none⟩

/-- The partition loop of `TopicData_...encode`:
`for _, block := range t.Partitions { block.encode(pe, t.Version) }`.
The loop variable is a copy, so the receiver mutation done by the nested
encode is discarded; only the bytes survive. -/
def TopicData_BeginQuorumEpochRequest.encodePartitionsLoop
    (version : Int) : List PartitionData_BeginQuorumEpochRequest → Except CodecError Bytes
  | [] => .ok []
  | p :: rest =>
    match (p.encode version).2 with
    | .error e => .error e
    | .ok b =>
      match encodePartitionsLoop version rest with
      | .error e => .error e
      | .ok bsr => .ok (b ++ bsr)

/-- `func (t *TopicData_BeginQuorumEpochRequest) encode(pe, version)`:
sets Version, writes the topic name, the partition count
(`len(t.Partitions)`, so a nil slice writes 0), then each partition with
the just-set `t.Version`, propagating the first failure. -/
def TopicData_BeginQuorumEpochRequest.encode
    (t : TopicData_BeginQuorumEpochRequest) (version : Int) :
    TopicData_BeginQuorumEpochRequest × Except CodecError Bytes :=
  let t := { t with Version := version }
  match putString t.TopicName with
  | .error e => (t, .error e)
  | .ok nameB =>
    match putArrayLength (goLen t.Partitions) with
    | .error e => (t, .error e)
    | .ok lenB =>
      match TopicData_BeginQuorumEpochRequest.encodePartitionsLoop t.Version (goList t.Partitions) with
      | .error e => (t, .error e)
      | .ok pB => (t, .ok (nameB ++ lenB ++ pB))

/-- The partition loop of `TopicData_...decode`: decodes `k` partition
records, each into a fresh zero-valued `block`, stopping at the first
failure.  It returns the successfully decoded records and either the
remaining bytes or the failure. -/
def TopicData_BeginQuorumEpochRequest.decodePartitionsLoop
    (version : Int) : Nat → Bytes → List PartitionData_BeginQuorumEpochRequest × Except CodecError Bytes
  | 0, bs => ([], .ok bs)
  | k + 1, bs =>
    match PartitionData_BeginQuorumEpochRequest.goZero.decode version bs with
    | (_, .error e) => ([], .error e)
    | (p, .ok rest) =>
      let r := TopicData_BeginQuorumEpochRequest.decodePartitionsLoop version k rest
      (p :: r.1, r.2)

/-- `func (t *TopicData_BeginQuorumEpochRequest) decode(pd, version)`:
sets Version, reads the topic name and the partition count; when the count
is positive it allocates `make([]PartitionData, n)` (zero values) and fills
it one decoded block at a time, so on failure the receiver keeps the
decoded records followed by zero values; when the count is not positive the
Partitions field is left untouched. -/
def TopicData_BeginQuorumEpochRequest.decode
    (t : TopicData_BeginQuorumEpochRequest) (version : Int) (bs : Bytes) :
    TopicData_BeginQuorumEpochRequest × Except CodecError Bytes :=
  let t := { t with Version := version }
  match getString bs with
  | .error e => (t, .error e)
  | .ok (name, bs) =>
    let t := { t with TopicName := name }
    match getArrayLength bs with
    | .error e => (t, .error e)
    | .ok (n, bs) =>
      if 0 < n then
        let r := TopicData_BeginQuorumEpochRequest.decodePartitionsLoop t.Version n.toNat bs
        ({ t with Partitions := some (r.1 ++ List.replicate (n.toNat - r.1.length) PartitionData_BeginQuorumEpochRequest.goZero) }, r.2)
      else (t, .ok bs)

/-- The BeginQuorumEpochRequest message, as in the Go source
(`ClusterID *string`, `Topics []TopicData_...`). -/
structure BeginQuorumEpochRequest where
  Version : Int
  ClusterID : Option Bytes
  Topics : GoSlice TopicData_BeginQuorumEpochRequest
deriving DecidableEq

/-- The Go zero value of the request (`var req BeginQuorumEpochRequest`). -/
def BeginQuorumEpochRequest.goZero : BeginQuorumEpochRequest :=
  ⟨0, none, none⟩

/-- The topic loop of `BeginQuorumEpochRequest.encode`:
`for _, block := range r.Topics { block.encode(pe, r.Version) }`; the loop
variable is a copy, so the nested receiver mutation is discarded. -/
def BeginQuorumEpochRequest.encodeTopicsLoop
    (version : Int) : List TopicData_BeginQuorumEpochRequest → Except CodecError Bytes
  | [] => .ok []
  | t :: rest =>
    match (t.encode version).2 with
    | .error e => .error e
    | .ok b =>
      match encodeTopicsLoop version rest with
      | .error e => .error e
      | .ok bsr => .ok (b ++ bsr)

/-- `func (r *BeginQuorumEpochRequest) encode(pe)`: takes no version
argument; writes the nullable cluster id, the topic count
(`len(r.Topics)`), then each topic with the pre-existing `r.Version`.  The
receiver itself is returned unchanged: the loop encodes copies of the
slice elements and the top level sets no field of `r`. -/
def BeginQuorumEpochRequest.encode (r : BeginQuorumEpochRequest) :
    BeginQuorumEpochRequest × Except CodecError Bytes :=
  match putNullableString r.ClusterID with
  | .error e => (r, .error e)
  | .ok cidB =>
    match putArrayLength (goLen r.Topics) with
    | .error e => (r, .error e)
    | .ok lenB =>
      match BeginQuorumEpochRequest.encodeTopicsLoop r.Version (goList r.Topics) with
      | .error e => (r, .error e)
      | .ok tB => (r, .ok (cidB ++ lenB ++ tB))

/-- The topic loop of `BeginQuorumEpochRequest.decode`: decodes `k` topic
records, each into a fresh zero-valued `block`, stopping at the first
failure. -/
def BeginQuorumEpochRequest.decodeTopicsLoop
    (version : Int) : Nat → Bytes → List TopicData_BeginQuorumEpochRequest × Except CodecError Bytes
  | 0, bs => ([], .ok bs)
  | k + 1, bs =>
    match TopicData_BeginQuorumEpochRequest.goZero.decode version bs with
    | (_, .error e) => ([], .error e)
    | (t, .ok rest) =>
      let r := BeginQuorumEpochRequest.decodeTopicsLoop version k rest
      (t :: r.1, r.2)

/-- `func (r *BeginQuorumEpochRequest) decode(pd, version)`: sets Version,
reads the nullable cluster id and the topic count; when the count is
positive it allocates `make([]TopicData, n)` and fills it one decoded
block at a time; when it is not positive the Topics field is left
untouched. -/
def BeginQuorumEpochRequest.decode
    (r : BeginQuorumEpochRequest) (version : Int) (bs : Bytes) :
    BeginQuorumEpochRequest × Except CodecError Bytes :=
  let r := { r with Version := version }
  match getNullableString bs with
  | .error e => (r, .error e)
  | .ok (cid, bs) =>
    let r := { r with ClusterID := cid }
    match getArrayLength bs with
    | .error e => (r, .error e)
    | .ok (n, bs) =>
      if 0 < n then
        let res := BeginQuorumEpochRequest.decodeTopicsLoop r.Version n.toNat bs
        ({ r with Topics := some (res.1 ++ List.replicate (n.toNat - res.1.length) TopicData_BeginQuorumEpochRequest.goZero) }, res.2)
      else (r, .ok bs)

/-- `func (r *BeginQuorumEpochRequest) GetKey() int16 { return 53 }` -/
def BeginQuorumEpochRequest.GetKey (_ : BeginQuorumEpochRequest) : Int := 53

/-- `func (r *BeginQuorumEpochRequest) GetVersion() int16` -/
def BeginQuorumEpochRequest.GetVersion (r : BeginQuorumEpochRequest) : Int := r.Version

/-- `func (r *BeginQuorumEpochRequest) GetHeaderVersion() int16 { return 1 }` -/
def BeginQuorumEpochRequest.GetHeaderVersion (_ : BeginQuorumEpochRequest) : Int := 1

/-- `func (r *BeginQuorumEpochRequest) IsValidVersion() bool { return r.Version == 0 }` -/
def BeginQuorumEpochRequest.IsValidVersion (r : BeginQuorumEpochRequest) : Bool :=
  r.Version == 0

/-- The wire layout of the partition list of one topic, written from the
spec's words for comparison with the encoder: per partition, `int32`
partition index, `int32` leader id, `int32` leader epoch. -/
def specPartitionsLayout_v0 : List PartitionData_BeginQuorumEpochRequest → Bytes
  | [] => []
  | p :: rest =>
    putInt32 p.PartitionIndex ++ putInt32 p.LeaderID ++ putInt32 p.LeaderEpoch ++
      specPartitionsLayout_v0 rest

/-- The wire layout of the topic list, written from the spec's words: per
topic, a non-nullable string (topic name) and an `int32` partition count
followed by the partitions. -/
def specTopicsLayout_v0 : List TopicData_BeginQuorumEpochRequest → Bytes
  | [] => []
  | t :: rest =>
    putInt16 (t.TopicName.length : Int) ++ t.TopicName ++
      putInt32 ((goLen t.Partitions : Nat) : Int) ++
      specPartitionsLayout_v0 (goList t.Partitions) ++ specTopicsLayout_v0 rest

/-- The body layout claimed by the spec for the request at body version 0:
a nullable string (cluster id), then an `int32` topic count followed by the
topics in order, nothing skipped or reordered.  Written from the spec's
words, to be compared with `BeginQuorumEpochRequest.encode`. -/
def specBodyLayout_v0 (r : BeginQuorumEpochRequest) : Bytes :=
  (match r.ClusterID with
   | none => putInt16 (-1)
   | some s => putInt16 (s.length : Int) ++ s) ++
    putInt32 ((goLen r.Topics : Nat) : Int) ++ specTopicsLayout_v0 (goList r.Topics)

/-- The int32 fields of a partition record fit a 32-bit signed integer:
the legal field values of the Go `int32` type. -/
def PartitionInRange (p : PartitionData_BeginQuorumEpochRequest) : Prop :=
  -2147483648 ≤ p.PartitionIndex ∧ p.PartitionIndex < 2147483648 ∧
    -2147483648 ≤ p.LeaderID ∧ p.LeaderID < 2147483648 ∧
    -2147483648 ≤ p.LeaderEpoch ∧ p.LeaderEpoch < 2147483648

instance instDecPartitionInRange (p : PartitionData_BeginQuorumEpochRequest) :
    Decidable (PartitionInRange p) := by
  unfold PartitionInRange; infer_instance

/-- Every nested record of a request carries the request's own version:
the one-version-in-force invariant on a message instance. -/
def VersionConsistent (r : BeginQuorumEpochRequest) : Prop :=
  ∀ t ∈ goList r.Topics, t.Version = r.Version ∧
    ∀ p ∈ goList t.Partitions, p.Version = r.Version

instance instDecVersionConsistent (r : BeginQuorumEpochRequest) :
    Decidable (VersionConsistent r) := by
  unfold VersionConsistent; infer_instance

/-- Every empty slice of the request is the nil slice: the normalized form
that a decode produces (decode never builds a present-but-empty slice). -/
def EmptySlicesNil (r : BeginQuorumEpochRequest) : Prop :=
  r.Topics ≠ some [] ∧ ∀ t ∈ goList r.Topics, t.Partitions ≠ some []

instance instDecEmptySlicesNil (r : BeginQuorumEpochRequest) :
    Decidable (EmptySlicesNil r) := by
  unfold EmptySlicesNil; infer_instance

/-- All partition int32 fields of the request are legal `int32` values. -/
def Int32FieldsInRange (r : BeginQuorumEpochRequest) : Prop :=
  ∀ t ∈ goList r.Topics, ∀ p ∈ goList t.Partitions, PartitionInRange p

instance instDecInt32FieldsInRange (r : BeginQuorumEpochRequest) :
    Decidable (Int32FieldsInRange r) := by
  unfold Int32FieldsInRange; infer_instance

/-- The security-protocol enumeration of the `utils` package
(`PLAINTEXT`, `SSL`, `SASL_PLAINTEXT`, `SASL_SSL`, `UNDEFINED`). -/
inductive SecurityProtocol where
  | PLAINTEXT
  | SSL
  | SASL_PLAINTEXT
  | SASL_SSL
  | UNDEFINED
deriving DecidableEq

/-- Go `strings.ToUpper` restricted to ASCII, which is all its callers
here need: upper-cases every character of the string. -/
def goToUpper (s : String) : String :=
  ⟨s.data.map Char.toUpper⟩

/-- Go `strings.ToLower` restricted to ASCII: lower-cases every character
of the string. -/
def goToLower (s : String) : String :=
  ⟨s.data.map Char.toLower⟩

/-- `func ParseSecurityProtocol(p string) (SecurityProtocol, bool)`: a
switch on `strings.ToUpper(p)` over the four known protocol names, with
`(UNDEFINED, false)` as the default case. -/
def ParseSecurityProtocol (p : String) : SecurityProtocol × Bool :=
  let u := goToUpper p
  if u = "PLAINTEXT" then (.PLAINTEXT, true)
  else if u = "SSL" then (.SSL, true)
  else if u = "SASL_PLAINTEXT" then (.SASL_PLAINTEXT, true)
  else if u = "SASL_SSL" then (.SASL_SSL, true)
  else (.UNDEFINED, false)

/-- A broker listener; fields as used by `broker.go`
(`Host`, `Port`, `SecurityProtocol`, `ListenerName`). -/
structure Listener where
  Host : String
  Port : Int
  Security : SecurityProtocol
  ListenerName : String
deriving DecidableEq

/-- The broker configuration record; fields as used by `broker.go`
(`Listeners`, `AdvertisedListeners`, `BrokerID`). -/
structure Broker where
  Listeners : List Listener
  AdvertisedListeners : List Listener
  BrokerID : Int
deriving DecidableEq

/-- `strings.EqualFold` restricted to ASCII case folding, which is all the
callers here need: the two strings are equal after lower-casing. -/
def goEqualFold (s t : String) : Bool :=
  goToLower s == goToLower t

/-- The loop of `validateAdvertisedListeners`: returns the error message
for the first advertised listener whose host is `0.0.0.0` (compared with
`strings.EqualFold`) or empty. -/
def validateAdvertisedListenersLoop : List Listener → Option String
  | [] => none
  | l :: rest =>
    if goEqualFold l.Host "0.0.0.0" || l.Host == "" then
      some ("advertising listener on 0.0.0.0 address is not allowed for listener " ++ l.ListenerName)
    else validateAdvertisedListenersLoop rest

/-- `func validateAdvertisedListeners(b *config.Broker) error`: walks
`b.AdvertisedListeners` and fails on the first listener advertising on
`0.0.0.0` or an empty host; it only reads the broker, never writes it. -/
def validateAdvertisedListeners (b : Broker) : Option String :=
  validateAdvertisedListenersLoop b.AdvertisedListeners

/-- The advertised-listener check errors on a listener list exactly when
some listener has a `0.0.0.0` (case-insensitive) or empty host. -/
theorem validateAdvertisedListenersLoop_isSome (ls : List Listener) :
    (validateAdvertisedListenersLoop ls).isSome = true ↔
      ∃ l ∈ ls, goEqualFold l.Host "0.0.0.0" = true ∨ l.Host = "" := by
  induction ls with
  | nil => simp [validateAdvertisedListenersLoop]
  | cons l rest ih =>
    simp only [validateAdvertisedListenersLoop]
    by_cases h : (goEqualFold l.Host "0.0.0.0" || l.Host == "") = true
    · rw [if_pos h]
      simp only [Bool.or_eq_true, beq_iff_eq] at h
      simp only [Option.isSome_some, true_iff]
      exact ⟨l, List.mem_cons_self l rest, h⟩
    · rw [if_neg h, ih]
      simp only [Bool.or_eq_true, beq_iff_eq] at h
      constructor
      · rintro ⟨x, hx, hp⟩
        exact ⟨x, List.mem_cons_of_mem l hx, hp⟩
      · rintro ⟨x, hx, hp⟩
        rcases List.mem_cons.mp hx with hx | hx
        · subst hx; exact absurd hp h
        · exact ⟨x, hx, hp⟩

/-- Claim C10: `validateAdvertisedListeners` returns an error exactly when
some advertised listener of the broker has a host equal to `0.0.0.0`
(compared case-insensitively) or an empty host; the function only reads
the broker, so a broker whose advertised listeners all pass is left
unchanged and validated without error. -/
theorem validateAdvertisedListeners_error_iff (b : Broker) :
    (validateAdvertisedListeners b).isSome = true ↔
      ∃ l ∈ b.AdvertisedListeners, goEqualFold l.Host "0.0.0.0" = true ∨ l.Host = "" :=
  validateAdvertisedListenersLoop_isSome b.AdvertisedListeners

/-- Claim C9: `ParseSecurityProtocol` is case-insensitive and never
defaults silently: any string whose upper-cased form is one of the four
protocol names maps to that protocol with `true`, and every other string
maps to `(UNDEFINED, false)`. -/
theorem parseSecurityProtocol_case_insensitive (s : String) :
    (goToUpper s = "PLAINTEXT" → ParseSecurityProtocol s = (.PLAINTEXT, true)) ∧
    (goToUpper s = "SSL" → ParseSecurityProtocol s = (.SSL, true)) ∧
    (goToUpper s = "SASL_PLAINTEXT" → ParseSecurityProtocol s = (.SASL_PLAINTEXT, true)) ∧
    (goToUpper s = "SASL_SSL" → ParseSecurityProtocol s = (.SASL_SSL, true)) ∧
    (goToUpper s ≠ "PLAINTEXT" → goToUpper s ≠ "SSL" → goToUpper s ≠ "SASL_PLAINTEXT" →
      goToUpper s ≠ "SASL_SSL" → ParseSecurityProtocol s = (.UNDEFINED, false)) := by
  refine ⟨fun h => ?_, fun h => ?_, fun h => ?_, fun h => ?_, fun h1 h2 h3 h4 => ?_⟩
  · simp [ParseSecurityProtocol, h]
  · simp [ParseSecurityProtocol, h]
  · simp [ParseSecurityProtocol, h]
  · simp [ParseSecurityProtocol, h]
  · simp [ParseSecurityProtocol, h1, h2, h3, h4]

/-- Claim C9 witness: `ssl`, `SSL` and `Ssl` all resolve to `SSL` with
`true`, and `bogus` resolves to the explicit `(UNDEFINED, false)`. -/
theorem parseSecurityProtocol_case_insensitive_witness :
    ParseSecurityProtocol "ssl" = (.SSL, true) ∧
    ParseSecurityProtocol "SSL" = (.SSL, true) ∧
    ParseSecurityProtocol "Ssl" = (.SSL, true) ∧
    ParseSecurityProtocol "bogus" = (.UNDEFINED, false) :=
  ⟨(parseSecurityProtocol_case_insensitive "ssl").2.1 (by decide),
   (parseSecurityProtocol_case_insensitive "SSL").2.1 (by decide),
   (parseSecurityProtocol_case_insensitive "Ssl").2.1 (by decide),
   (parseSecurityProtocol_case_insensitive "bogus").2.2.2.2
     (by decide) (by decide) (by decide) (by decide)⟩

/-- Claim C6: the message registry data of BeginQuorumEpochRequest:
`IsValidVersion` is true exactly when `Version = 0` (so every other
requested body version is rejected), and the API key is 53. -/
theorem getKey_isValidVersion_registry (r : BeginQuorumEpochRequest) :
    (r.IsValidVersion = true ↔ r.Version = 0) ∧ r.GetKey = 53 :=
  ⟨by simp [BeginQuorumEpochRequest.IsValidVersion], rfl⟩

/-- Claim C4 counterexample: the top-level encode takes no version
argument and mutates no version field of the instance: encoding a request
whose top-level Version is 0 but whose topic record carries Version 5
succeeds and returns the instance unchanged, so after the encode two
different Version values remain in force inside the same message. -/
theorem encode_nested_version_counterexample :
    BeginQuorumEpochRequest.encode ⟨0, none, some [⟨5, [97], none⟩]⟩ =
      (⟨0, none, some [⟨5, [97], none⟩]⟩, .ok [255, 255, 0, 0, 0, 1, 0, 1, 97, 0, 0, 0, 0]) ∧
    (BeginQuorumEpochRequest.encode ⟨0, none, some [⟨5, [97], none⟩]⟩).1.Version = 0 ∧
    (∃ t ∈ goList (BeginQuorumEpochRequest.encode ⟨0, none, some [⟨5, [97], none⟩]⟩).1.Topics,
      t.Version ≠ 0) := by decide

/-- Claim C4 amended: the topic- and partition-level encodes set the
Version field of their own receiver to the supplied version (and thread
that version into every nested encode call), but the top-level encode
takes no version argument: it threads its pre-existing `Version` field
into the topic encodes and returns the receiver itself completely
unchanged, because the encode loops run on copies of the slice
elements. -/
theorem encode_receiver_version_stamping :
    (∀ (p : PartitionData_BeginQuorumEpochRequest) (v : Int),
      (p.encode v).1 = { p with Version := v }) ∧
    (∀ (t : TopicData_BeginQuorumEpochRequest) (v : Int),
      (t.encode v).1 = { t with Version := v }) ∧
    (∀ r : BeginQuorumEpochRequest, (r.encode).1 = r) := by
  refine ⟨fun p v => rfl, fun t v => ?_, fun r => ?_⟩
  · simp only [TopicData_BeginQuorumEpochRequest.encode]
    cases putString t.TopicName with
    | error e => rfl
    | ok nameB =>
      cases putArrayLength (goLen t.Partitions) with
      | error e => rfl
      | ok lenB =>
        cases TopicData_BeginQuorumEpochRequest.encodePartitionsLoop v (goList t.Partitions) with
        | error e => rfl
        | ok pB => rfl
  · simp only [BeginQuorumEpochRequest.encode]
    cases putNullableString r.ClusterID with
    | error e => rfl
    | ok cidB =>
      cases putArrayLength (goLen r.Topics) with
      | error e => rfl
      | ok lenB =>
        cases BeginQuorumEpochRequest.encodeTopicsLoop r.Version (goList r.Topics) with
        | error e => rfl
        | ok tB => rfl

/-- Claim C8 counterexample: a failed decode does mutate the receiver
observably: decoding `[0, 2, 97, 98]` (a present cluster id and then a
truncated buffer) with version 3 fails with `InsufficientData`, yet the
receiver now carries `Version = 3` and the decoded cluster id, so a
partially populated message is left behind. -/
theorem decode_error_receiver_mutated_counterexample :
    BeginQuorumEpochRequest.goZero.decode 3 [0, 2, 97, 98] =
      (⟨3, some [97, 98], none⟩, .error .InsufficientData) ∧
    (⟨3, some [97, 98], none⟩ : BeginQuorumEpochRequest) ≠ BeginQuorumEpochRequest.goZero := by
  decide

/-- Claim C8 amended: a failed decode returns its error to the caller
instead of a success, but the receiver is observably mutated on the error
path: whatever bytes are supplied and however far the decode gets, the
receiver's Version field has been set to the supplied version, and fields
decoded before the failure point keep their decoded values, so callers
must rely on the returned error and discard the instance. -/
theorem decode_error_reports_failure_version_set
    (r : BeginQuorumEpochRequest) (v : Int) (bs : Bytes) :
    ((r.decode v bs).1).Version = v := by
  cases h1 : getNullableString bs with
  | error e => simp [BeginQuorumEpochRequest.decode, h1]
  | ok p =>
    obtain ⟨cid, bs1⟩ := p
    cases h2 : getArrayLength bs1 with
    | error e => simp [BeginQuorumEpochRequest.decode, h1, h2]
    | ok q =>
      obtain ⟨n, bs2⟩ := q
      by_cases h : 0 < n
      · simp [BeginQuorumEpochRequest.decode, h1, h2, h]
      · simp [BeginQuorumEpochRequest.decode, h1, h2, h]

/-- Claim C1 counterexample: the round-trip law fails for a legal message
with a present-but-empty topic list: it encodes as topic count 0, and
decoding those bytes leaves the Topics field nil (absent), which is a
different Go value than the original non-nil empty slice. -/
theorem encode_decode_empty_topics_counterexample :
    (BeginQuorumEpochRequest.encode ⟨0, none, some []⟩).2 = .ok [255, 255, 0, 0, 0, 0] ∧
    BeginQuorumEpochRequest.goZero.decode 0 [255, 255, 0, 0, 0, 0] =
      (⟨0, none, none⟩, .ok []) ∧
    (⟨0, none, none⟩ : BeginQuorumEpochRequest) ≠ ⟨0, none, some []⟩ := by decide

/-- Claim C5 counterexample: a partition list encoded as present with zero
elements does not decode to a present list with zero entries: the topic
`⟨0, [97], some []⟩` encodes its empty partition list as count 0, and
decoding those bytes leaves the Partitions field absent (nil), which
differs from the present empty list. -/
theorem empty_array_roundtrip_counterexample :
    (TopicData_BeginQuorumEpochRequest.encode ⟨0, [97], some []⟩ 0).2 =
      .ok [0, 1, 97, 0, 0, 0, 0] ∧
    TopicData_BeginQuorumEpochRequest.goZero.decode 0 [0, 1, 97, 0, 0, 0, 0] =
      (⟨0, [97], none⟩, .ok []) ∧
    ((⟨0, [97], none⟩ : TopicData_BeginQuorumEpochRequest).Partitions = none ∧
      (some [] : GoSlice PartitionData_BeginQuorumEpochRequest) ≠ none) := by decide

/-- Taking the length of the left part of an append returns it. -/
theorem take_len_append (a b : List Nat) : (a ++ b).take a.length = a := by
  induction a with
  | nil => simp
  | cons x xs ih => simp [ih]

/-- Dropping the length of the left part of an append returns the right
part. -/
theorem drop_len_append (a b : List Nat) : (a ++ b).drop a.length = b := by
  induction a with
  | nil => simp
  | cons x xs ih => simp [ih]

/-- Reading back a 16-bit big-endian integer returns the value written,
for any value in 16-bit signed range. -/
theorem getInt16_putInt16 (x : Int) (rest : Bytes)
    (h1 : -32768 ≤ x) (h2 : x < 32768) :
    getInt16 (putInt16 x ++ rest) = .ok (x, rest) := by
  simp only [putInt16, getInt16, List.cons_append, List.nil_append]
  set n := (x % 65536).toNat with hn
  have hrec : n / 256 % 256 * 256 + n % 256 = n := by omega
  rw [hrec]
  have hval : (if n < 32768 then (n : Int) else (n : Int) - 65536) = x := by
    split <;> omega
  rw [hval]

/-- Reading back a 32-bit big-endian integer returns the value written,
for any value in 32-bit signed range. -/
theorem getInt32_putInt32 (x : Int) (rest : Bytes)
    (h1 : -2147483648 ≤ x) (h2 : x < 2147483648) :
    getInt32 (putInt32 x ++ rest) = .ok (x, rest) := by
  simp only [putInt32, getInt32, List.cons_append, List.nil_append]
  set n := (x % 4294967296).toNat with hn
  have hrec : n / 16777216 % 256 * 16777216 + n / 65536 % 256 * 65536 +
      n / 256 % 256 * 256 + n % 256 = n := by omega
  rw [hrec]
  have hval : (if n < 2147483648 then (n : Int) else (n : Int) - 4294967296) = x := by
    split <;> omega
  rw [hval]

/-- Reading back a non-nullable string returns the bytes written, for any
payload the encoder accepts. -/
theorem getString_putString (s : Bytes) (rest : Bytes) (h : s.length ≤ 32767) :
    getString (putInt16 (s.length : Int) ++ (s ++ rest)) = .ok (s, rest) := by
  have e1 : getInt16 (putInt16 (s.length : Int) ++ (s ++ rest)) =
      .ok ((s.length : Int), s ++ rest) := by
    apply getInt16_putInt16 <;> omega
  simp only [getString, List.append_assoc, e1]
  have h0 : ¬((s.length : Int) < 0) := by omega
  rw [if_neg h0]
  have hτ : ((s.length : Int)).toNat = s.length := by omega
  rw [hτ]
  have h2 : ¬((s ++ rest).length < s.length) := by simp
  rw [if_neg h2, take_len_append, drop_len_append]

/-- Reading back a nullable string returns the value written, present or
absent, whenever the encoder succeeded. -/
theorem getNullableString_putNullableString (cid : Option Bytes) (b rest : Bytes)
    (henc : putNullableString cid = .ok b) :
    getNullableString (b ++ rest) = .ok (cid, rest) := by
  cases cid with
  | none =>
    simp only [putNullableString] at henc
    cases henc
    have e1 : getInt16 (putInt16 (-1) ++ rest) = .ok (-1, rest) := by
      apply getInt16_putInt16 <;> omega
    simp [getNullableString, e1]
  | some s =>
    simp only [putNullableString, putString] at henc
    by_cases hl : 32767 < s.length
    · rw [if_pos hl] at henc; cases henc
    · rw [if_neg hl] at henc
      cases henc
      have e1 : getInt16 (putInt16 (s.length : Int) ++ (s ++ rest)) =
          .ok ((s.length : Int), s ++ rest) := by
        apply getInt16_putInt16 <;> omega
      simp only [getNullableString, List.append_assoc, e1]
      have hne : ¬((s.length : Int) = -1) := by omega
      have h0 : ¬((s.length : Int) < 0) := by omega
      rw [if_neg hne, if_neg h0]
      have hτ : ((s.length : Int)).toNat = s.length := by omega
      rw [hτ]
      have h2 : ¬((s ++ rest).length < s.length) := by simp
      rw [if_neg h2, take_len_append, drop_len_append]

/-- Reading back an array count returns the count written, whenever the
encoder accepted it. -/
theorem getArrayLength_putArrayLength (k : Nat) (rest : Bytes) (h : k ≤ 2147483647) :
    getArrayLength (putInt32 (k : Int) ++ rest) = .ok ((k : Int), rest) := by
  have e1 : getInt32 (putInt32 (k : Int) ++ rest) = .ok ((k : Int), rest) := by
    apply getInt32_putInt32 <;> omega
  simp only [getArrayLength, e1]
  have hne : ¬((k : Int) < -1) := by omega
  rw [if_neg hne]

/-- A successful nullable-string encode produces the layout the spec
describes: the `-1` sentinel for the absent value, the length-prefixed
bytes for a present one. -/
theorem putNullableString_ok (cid : Option Bytes) (b : Bytes)
    (h : putNullableString cid = .ok b) :
    b = (match cid with
         | none => putInt16 (-1)
         | some s => putInt16 (s.length : Int) ++ s) := by
  cases cid with
  | none => simp only [putNullableString] at h; cases h; rfl
  | some s =>
    simp only [putNullableString, putString] at h
    by_cases hl : 32767 < s.length
    · rw [if_pos hl] at h; cases h
    · rw [if_neg hl] at h; cases h; rfl

/-- Decoding a partition record with the version it was encoded under, and
legal `int32` field values, returns the record and the remaining bytes. -/
theorem partition_roundtrip (p : PartitionData_BeginQuorumEpochRequest) (v : Int)
    (rest : Bytes) (hv : p.Version = v) (hr : PartitionInRange p) :
    PartitionData_BeginQuorumEpochRequest.goZero.decode v
      (putInt32 p.PartitionIndex ++ (putInt32 p.LeaderID ++ (putInt32 p.LeaderEpoch ++ rest))) =
      (p, .ok rest) := by
  unfold PartitionInRange at hr
  obtain ⟨pv, pi, lid, le⟩ := p
  obtain ⟨a1, a2, a3, a4, a5, a6⟩ := hr
  have hv2 : pv = v := hv
  subst hv2
  have e1 : getInt32 (putInt32 pi ++ (putInt32 lid ++ (putInt32 le ++ rest))) =
      .ok (pi, putInt32 lid ++ (putInt32 le ++ rest)) := getInt32_putInt32 _ _ a1 a2
  have e2 : getInt32 (putInt32 lid ++ (putInt32 le ++ rest)) =
      .ok (lid, putInt32 le ++ rest) := getInt32_putInt32 _ _ a3 a4
  have e3 : getInt32 (putInt32 le ++ rest) = .ok (le, rest) := getInt32_putInt32 _ _ a5 a6
  simp [PartitionData_BeginQuorumEpochRequest.decode, e1, e2, e3]

/-- The partition encode loop never fails and emits exactly the spec's
partition layout. -/
theorem encodePartitionsLoop_eq (v : Int) (ps : List PartitionData_BeginQuorumEpochRequest) :
    TopicData_BeginQuorumEpochRequest.encodePartitionsLoop v ps =
      .ok (specPartitionsLayout_v0 ps) := by
  induction ps with
  | nil => rfl
  | cons p ptail ih =>
    simp [TopicData_BeginQuorumEpochRequest.encodePartitionsLoop,
      PartitionData_BeginQuorumEpochRequest.encode, ih, specPartitionsLayout_v0,
      List.append_assoc]

/-- Decoding the encoded partition list with the matching count and
version returns the list and the remaining bytes. -/
theorem decodePartitionsLoop_roundtrip (v : Int)
    (ps : List PartitionData_BeginQuorumEpochRequest) (rest : Bytes)
    (h : ∀ p ∈ ps, p.Version = v ∧ PartitionInRange p) :
    TopicData_BeginQuorumEpochRequest.decodePartitionsLoop v ps.length
      (specPartitionsLayout_v0 ps ++ rest) = (ps, .ok rest) := by
  induction ps with
  | nil =>
    simp [TopicData_BeginQuorumEpochRequest.decodePartitionsLoop, specPartitionsLayout_v0]
  | cons p ptail ih =>
    have hp := h p (by simp)
    have e := partition_roundtrip p v (specPartitionsLayout_v0 ptail ++ rest) hp.1 hp.2
    have ihh := ih (fun q hq => h q (by simp [hq]))
    simp only [specPartitionsLayout_v0, List.length_cons, List.append_assoc]
    simp [TopicData_BeginQuorumEpochRequest.decodePartitionsLoop, e, ihh]

/-- The result bytes of a topic encode: an error on an oversized name or
count, and otherwise exactly the spec's topic layout. -/
theorem topicEncode_eq (t : TopicData_BeginQuorumEpochRequest) (v : Int) :
    (t.encode v).2 =
      (if 32767 < t.TopicName.length then .error .EncodeValueTooLarge
       else if 2147483647 < goLen t.Partitions then .error .EncodeValueTooLarge
       else .ok (putInt16 (t.TopicName.length : Int) ++ t.TopicName ++
         putInt32 ((goLen t.Partitions : Nat) : Int) ++
         specPartitionsLayout_v0 (goList t.Partitions))) := by
  obtain ⟨tv, name, parts⟩ := t
  by_cases h1 : 32767 < name.length
  · simp [TopicData_BeginQuorumEpochRequest.encode, putString, h1]
  · by_cases h2 : 2147483647 < goLen parts
    · simp [TopicData_BeginQuorumEpochRequest.encode, putString, putArrayLength, h1, h2]
    · simp [TopicData_BeginQuorumEpochRequest.encode, putString, putArrayLength, h1, h2,
        encodePartitionsLoop_eq, List.append_assoc]

/-- What a successful topic encode guarantees: the name and count were in
range and the bytes are the spec's topic layout. -/
theorem topicEncode_ok (t : TopicData_BeginQuorumEpochRequest) (v : Int) (b : Bytes)
    (h : (t.encode v).2 = .ok b) :
    t.TopicName.length ≤ 32767 ∧ goLen t.Partitions ≤ 2147483647 ∧
      b = putInt16 (t.TopicName.length : Int) ++ (t.TopicName ++
        (putInt32 ((goLen t.Partitions : Nat) : Int) ++
          specPartitionsLayout_v0 (goList t.Partitions))) := by
  rw [topicEncode_eq] at h
  by_cases h1 : 32767 < t.TopicName.length
  · rw [if_pos h1] at h; cases h
  · rw [if_neg h1] at h
    by_cases h2 : 2147483647 < goLen t.Partitions
    · rw [if_pos h2] at h; cases h
    · rw [if_neg h2] at h
      cases h
      exact ⟨by omega, by omega, by simp [List.append_assoc]⟩

/-- Decoding an encoded topic record with the matching version returns the
record (provided its empty partition list, if any, is the nil slice) and
the remaining bytes. -/
theorem topic_roundtrip (t : TopicData_BeginQuorumEpochRequest) (v : Int) (rest : Bytes)
    (hv : t.Version = v)
    (hp : ∀ p ∈ goList t.Partitions, p.Version = v ∧ PartitionInRange p)
    (hnil : t.Partitions ≠ some [])
    (hname : t.TopicName.length ≤ 32767)
    (hcnt : goLen t.Partitions ≤ 2147483647) :
    TopicData_BeginQuorumEpochRequest.goZero.decode v
      (putInt16 (t.TopicName.length : Int) ++ (t.TopicName ++
        (putInt32 ((goLen t.Partitions : Nat) : Int) ++
          (specPartitionsLayout_v0 (goList t.Partitions) ++ rest)))) = (t, .ok rest) := by
  obtain ⟨tv, name, parts⟩ := t
  have hv2 : tv = v := hv
  subst hv2
  cases parts with
  | none =>
    have e1 := getString_putString name (putInt32 ((0 : Nat) : Int) ++ rest) hname
    have e2 : getArrayLength (putInt32 ((0 : Nat) : Int) ++ rest) =
        .ok (((0 : Nat) : Int), rest) := getArrayLength_putArrayLength 0 rest (by omega)
    have hneg : ¬((0 : Int) < ((0 : Nat) : Int)) := by omega
    simp only [goLen, goList, specPartitionsLayout_v0, List.nil_append]
    simp only [TopicData_BeginQuorumEpochRequest.decode, e1, e2, if_neg hneg,
      TopicData_BeginQuorumEpochRequest.goZero]
  | some ps =>
    cases ps with
    | nil => exact absurd rfl hnil
    | cons p ptail =>
      have e1 := getString_putString name
        (putInt32 (((p :: ptail).length : Nat) : Int) ++
          (specPartitionsLayout_v0 (p :: ptail) ++ rest)) hname
      have e2 := getArrayLength_putArrayLength (p :: ptail).length
        (specPartitionsLayout_v0 (p :: ptail) ++ rest) (by simpa [goLen] using hcnt)
      have e3 := decodePartitionsLoop_roundtrip tv (p :: ptail) rest
        (by simpa [goList] using hp)
      have hpos : (0 : Int) < (((p :: ptail).length : Nat) : Int) := by
        have : 0 < (p :: ptail).length := by simp
        omega
      have htn : ((((p :: ptail).length : Nat) : Int)).toNat = (p :: ptail).length := by
        omega
      simp only [goLen, goList]
      simp only [TopicData_BeginQuorumEpochRequest.decode, e1, e2, if_pos hpos, htn, e3,
        Nat.sub_self, List.replicate, List.append_nil]

/-- What a successful topic-list encode guarantees: the bytes are the
spec's topic-list layout, and every topic had an encodable name and
count. -/
theorem encodeTopicsLoop_ok (v : Int) (ts : List TopicData_BeginQuorumEpochRequest)
    (bs : Bytes) (h : BeginQuorumEpochRequest.encodeTopicsLoop v ts = .ok bs) :
    bs = specTopicsLayout_v0 ts ∧
      ∀ t ∈ ts, t.TopicName.length ≤ 32767 ∧ goLen t.Partitions ≤ 2147483647 := by
  induction ts generalizing bs with
  | nil =>
    simp only [BeginQuorumEpochRequest.encodeTopicsLoop, Except.ok.injEq] at h
    subst h
    exact ⟨rfl, by simp⟩
  | cons t ttail ih =>
    simp only [BeginQuorumEpochRequest.encodeTopicsLoop] at h
    cases he : (t.encode v).2 with
    | error e => simp [he] at h
    | ok b1 =>
      simp only [he] at h
      cases hl : BeginQuorumEpochRequest.encodeTopicsLoop v ttail with
      | error e => simp [hl] at h
      | ok b2 =>
        simp only [hl, Except.ok.injEq] at h
        subst h
        obtain ⟨hn, hc, hb⟩ := topicEncode_ok t v b1 he
        obtain ⟨hb2, hrest⟩ := ih b2 hl
        refine ⟨?_, ?_⟩
        · rw [hb, hb2]
          simp [specTopicsLayout_v0, List.append_assoc]
        · intro x hx
          rcases List.mem_cons.mp hx with hx | hx
          · subst hx; exact ⟨hn, hc⟩
          · exact hrest x hx

/-- Decoding an encoded topic list with the matching count and version
returns the list and the remaining bytes. -/
theorem decodeTopicsLoop_roundtrip (v : Int) (ts : List TopicData_BeginQuorumEpochRequest)
    (rest : Bytes)
    (h : ∀ t ∈ ts, t.Version = v ∧
      (∀ p ∈ goList t.Partitions, p.Version = v ∧ PartitionInRange p) ∧
      t.Partitions ≠ some [] ∧ t.TopicName.length ≤ 32767 ∧
      goLen t.Partitions ≤ 2147483647) :
    BeginQuorumEpochRequest.decodeTopicsLoop v ts.length
      (specTopicsLayout_v0 ts ++ rest) = (ts, .ok rest) := by
  induction ts with
  | nil => simp [BeginQuorumEpochRequest.decodeTopicsLoop, specTopicsLayout_v0]
  | cons t ttail ih =>
    obtain ⟨ht1, ht2, ht3, ht4, ht5⟩ := h t (by simp)
    have e := topic_roundtrip t v (specTopicsLayout_v0 ttail ++ rest) ht1 ht2 ht3 ht4 ht5
    have ihh := ih (fun q hq => h q (by simp [hq]))
    simp only [specTopicsLayout_v0, List.length_cons, List.append_assoc]
    simp only [BeginQuorumEpochRequest.decodeTopicsLoop, e, ihh]

/-- Claim C1 amended: decoding the bytes of a successful encode with the
message's own version (the supported version 0) reproduces the message,
for every legal message that is normalized: its nested records carry the
message's version, its int32 fields are legal 32-bit values, and its empty
topic/partition lists are represented as nil (absent) rather than
present-but-empty — the representation decode itself produces.  The
original claim fails only on present-but-empty lists. -/
theorem decode_encode_roundtrip_normalized (m : BeginQuorumEpochRequest) (bs : Bytes)
    (hv : m.Version = 0) (hc : VersionConsistent m) (hn : EmptySlicesNil m)
    (hr : Int32FieldsInRange m) (henc : (m.encode).2 = .ok bs) :
    BeginQuorumEpochRequest.goZero.decode 0 bs = (m, .ok []) := by
  unfold VersionConsistent at hc
  unfold EmptySlicesNil at hn
  unfold Int32FieldsInRange at hr
  obtain ⟨mv, cid, topics⟩ := m
  have hv2 : mv = 0 := hv
  subst hv2
  cases hcid : putNullableString cid with
  | error e => simp [BeginQuorumEpochRequest.encode, hcid] at henc
  | ok cidB =>
    cases hal : putArrayLength (goLen topics) with
    | error e => simp [BeginQuorumEpochRequest.encode, hcid, hal] at henc
    | ok lenB =>
      cases hloop : BeginQuorumEpochRequest.encodeTopicsLoop 0 (goList topics) with
      | error e => simp [BeginQuorumEpochRequest.encode, hcid, hal, hloop] at henc
      | ok tB =>
        simp only [BeginQuorumEpochRequest.encode, hcid, hal, hloop,
          Except.ok.injEq] at henc
        subst henc
        have hcnt : goLen topics ≤ 2147483647 := by
          simp only [putArrayLength] at hal
          by_cases hgt : 2147483647 < goLen topics
          · rw [if_pos hgt] at hal; cases hal
          · omega
        have hlenB : lenB = putInt32 ((goLen topics : Nat) : Int) := by
          simp only [putArrayLength] at hal
          rw [if_neg (by omega)] at hal
          injection hal with h
          exact h.symm
        obtain ⟨htB, hbounds⟩ := encodeTopicsLoop_ok 0 (goList topics) tB hloop
        subst hlenB
        subst htB
        cases topics with
        | none =>
          have e1 := getNullableString_putNullableString cid cidB
            (putInt32 ((0 : Nat) : Int) ++ specTopicsLayout_v0 ([] : List TopicData_BeginQuorumEpochRequest)) hcid
          have e2 := getArrayLength_putArrayLength 0
            (specTopicsLayout_v0 ([] : List TopicData_BeginQuorumEpochRequest)) (by omega)
          have hneg : ¬((0 : Int) < ((0 : Nat) : Int)) := by omega
          simp only [goLen, goList, specTopicsLayout_v0, List.append_nil,
            List.append_assoc] at e1 e2 ⊢
          simp only [BeginQuorumEpochRequest.decode, e1, e2, if_neg hneg,
            BeginQuorumEpochRequest.goZero]
        | some ts =>
          cases ts with
          | nil => exact absurd rfl hn.1
          | cons t ttail =>
            have e1 := getNullableString_putNullableString cid cidB
              (putInt32 (((t :: ttail).length : Nat) : Int) ++
                specTopicsLayout_v0 (t :: ttail)) hcid
            have e2 := getArrayLength_putArrayLength (t :: ttail).length
              (specTopicsLayout_v0 (t :: ttail)) (by simpa [goLen] using hcnt)
            have e3 := decodeTopicsLoop_roundtrip 0 (t :: ttail) []
              (fun q hq => ⟨(hc q hq).1, fun p hp => ⟨(hc q hq).2 p hp, hr q hq p hp⟩,
                hn.2 q hq, (hbounds q hq).1, (hbounds q hq).2⟩)
            simp only [List.append_nil] at e3
            have hpos : (0 : Int) < (((t :: ttail).length : Nat) : Int) := by
              have : 0 < (t :: ttail).length := by simp
              omega
            have htn : ((((t :: ttail).length : Nat) : Int)).toNat = (t :: ttail).length := by
              omega
            simp only [goLen, goList, List.append_assoc] at e1 e2 ⊢
            simp only [BeginQuorumEpochRequest.decode, e1, e2, if_pos hpos, htn, e3,
              Nat.sub_self, List.replicate, List.append_nil,
              BeginQuorumEpochRequest.goZero]

/-- Claim C1 witness: a message with absent cluster id, one topic and one
partition round-trips exactly through encode and decode at version 0. -/
theorem decode_encode_roundtrip_normalized_witness :
    BeginQuorumEpochRequest.goZero.decode 0
      [255, 255, 0, 0, 0, 1, 0, 1, 97, 0, 0, 0, 1, 0, 0, 0, 3, 0, 0, 0, 7, 0, 0, 0, 42] =
      ((⟨0, none, some [⟨0, [97], some [⟨0, 3, 7, 42⟩]⟩]⟩ : BeginQuorumEpochRequest), .ok []) :=
  decode_encode_roundtrip_normalized
    ⟨0, none, some [⟨0, [97], some [⟨0, 3, 7, 42⟩]⟩]⟩
    [255, 255, 0, 0, 0, 1, 0, 1, 97, 0, 0, 0, 1, 0, 0, 0, 3, 0, 0, 0, 7, 0, 0, 0, 42]
    (by decide) (by decide) (by decide) (by decide) (by decide)

/-- Claim C2: a successful encode at body version 0 emits exactly the
spec's body layout — nullable cluster-id string, int32 topic count, and
per topic its name, partition count and per-partition int32 triple, in
this order with nothing skipped or reordered. -/
theorem encode_emits_spec_body_layout (r : BeginQuorumEpochRequest) (bs : Bytes)
    (henc : (r.encode).2 = .ok bs) : bs = specBodyLayout_v0 r := by
  obtain ⟨mv, cid, topics⟩ := r
  cases hcid : putNullableString cid with
  | error e => simp [BeginQuorumEpochRequest.encode, hcid] at henc
  | ok cidB =>
    cases hal : putArrayLength (goLen topics) with
    | error e => simp [BeginQuorumEpochRequest.encode, hcid, hal] at henc
    | ok lenB =>
      cases hloop : BeginQuorumEpochRequest.encodeTopicsLoop mv (goList topics) with
      | error e => simp [BeginQuorumEpochRequest.encode, hcid, hal, hloop] at henc
      | ok tB =>
        simp only [BeginQuorumEpochRequest.encode, hcid, hal, hloop,
          Except.ok.injEq] at henc
        subst henc
        have hcidB := putNullableString_ok cid cidB hcid
        have hlenB : lenB = putInt32 ((goLen topics : Nat) : Int) := by
          simp only [putArrayLength] at hal
          by_cases hgt : 2147483647 < goLen topics
          · rw [if_pos hgt] at hal; cases hal
          · rw [if_neg hgt] at hal
            injection hal with h
            exact h.symm
        obtain ⟨htB, _⟩ := encodeTopicsLoop_ok mv (goList topics) tB hloop
        subst hlenB
        subst htB
        rw [hcidB]
        cases cid <;> simp [specBodyLayout_v0, List.append_assoc]

/-- Partition decode stamps the supplied version on the receiver, on
success and on failure alike. -/
theorem partitionDecode_fst_Version (p : PartitionData_BeginQuorumEpochRequest)
    (v : Int) (bs : Bytes) : ((p.decode v bs).1).Version = v := by
  cases h1 : getInt32 bs with
  | error e => simp [PartitionData_BeginQuorumEpochRequest.decode, h1]
  | ok q1 =>
    obtain ⟨a, bs1⟩ := q1
    cases h2 : getInt32 bs1 with
    | error e => simp [PartitionData_BeginQuorumEpochRequest.decode, h1, h2]
    | ok q2 =>
      obtain ⟨b, bs2⟩ := q2
      cases h3 : getInt32 bs2 with
      | error e => simp [PartitionData_BeginQuorumEpochRequest.decode, h1, h2, h3]
      | ok q3 =>
        obtain ⟨c, bs3⟩ := q3
        simp [PartitionData_BeginQuorumEpochRequest.decode, h1, h2, h3]

/-- A successful partition-loop decode returns exactly the requested
number of records, all stamped with the supplied version. -/
theorem decodePartitionsLoop_ok_facts (v : Int) (k : Nat) (bs : Bytes)
    (ps : List PartitionData_BeginQuorumEpochRequest) (rest : Bytes)
    (h : TopicData_BeginQuorumEpochRequest.decodePartitionsLoop v k bs = (ps, .ok rest)) :
    ps.length = k ∧ ∀ p ∈ ps, p.Version = v := by
  induction k generalizing bs ps with
  | zero =>
    simp only [TopicData_BeginQuorumEpochRequest.decodePartitionsLoop,
      Prod.mk.injEq] at h
    obtain ⟨h1, h2⟩ := h
    subst h1
    exact ⟨rfl, by simp⟩
  | succ k ih =>
    simp only [TopicData_BeginQuorumEpochRequest.decodePartitionsLoop] at h
    rcases hd : PartitionData_BeginQuorumEpochRequest.goZero.decode v bs with ⟨p1, res⟩
    cases res with
    | error e => simp [hd] at h
    | ok rest1 =>
      simp only [hd] at h
      rcases hr : TopicData_BeginQuorumEpochRequest.decodePartitionsLoop v k rest1
        with ⟨ps1, res1⟩
      rw [hr] at h
      simp only [Prod.mk.injEq] at h
      obtain ⟨h1, h2⟩ := h
      subst h1
      subst h2
      obtain ⟨hlen, hstamp⟩ := ih rest1 ps1 hr
      refine ⟨by simp [hlen], ?_⟩
      intro q hq
      rcases List.mem_cons.mp hq with hq | hq
      · subst hq
        have := partitionDecode_fst_Version PartitionData_BeginQuorumEpochRequest.goZero v bs
        rw [hd] at this
        exact this
      · exact hstamp q hq

/-- A successful topic decode stamps the supplied version on the topic and
on every decoded partition. -/
theorem topicDecode_ok_facts (v : Int) (bs : Bytes)
    (t : TopicData_BeginQuorumEpochRequest) (rest : Bytes)
    (h : TopicData_BeginQuorumEpochRequest.goZero.decode v bs = (t, .ok rest)) :
    t.Version = v ∧ ∀ p ∈ goList t.Partitions, p.Version = v := by
  cases h1 : getString bs with
  | error e => simp [TopicData_BeginQuorumEpochRequest.decode, h1] at h
  | ok q1 =>
    obtain ⟨name, bs1⟩ := q1
    cases h2 : getArrayLength bs1 with
    | error e => simp [TopicData_BeginQuorumEpochRequest.decode, h1, h2] at h
    | ok q2 =>
      obtain ⟨n, bs2⟩ := q2
      by_cases hpos : 0 < n
      · simp only [TopicData_BeginQuorumEpochRequest.decode, h1, h2, if_pos hpos] at h
        rcases hr : TopicData_BeginQuorumEpochRequest.decodePartitionsLoop v n.toNat bs2
          with ⟨ps1, res1⟩
        rw [hr] at h
        simp only [Prod.mk.injEq] at h
        obtain ⟨ht, hres⟩ := h
        subst hres
        subst ht
        obtain ⟨hlen, hstamp⟩ := decodePartitionsLoop_ok_facts v n.toNat bs2 ps1 rest hr
        refine ⟨rfl, ?_⟩
        simp only [goList, hlen, Nat.sub_self, List.replicate, List.append_nil]
        exact hstamp
      · simp only [TopicData_BeginQuorumEpochRequest.decode, h1, h2, if_neg hpos] at h
        injection h with ht hres
        subst ht
        exact ⟨rfl, by simp [goList, TopicData_BeginQuorumEpochRequest.goZero]⟩

/-- A successful topic-loop decode returns exactly the requested number of
topics, all version-stamped together with their partitions. -/
theorem decodeTopicsLoop_ok_facts (v : Int) (k : Nat) (bs : Bytes)
    (ts : List TopicData_BeginQuorumEpochRequest) (rest : Bytes)
    (h : BeginQuorumEpochRequest.decodeTopicsLoop v k bs = (ts, .ok rest)) :
    ts.length = k ∧ ∀ t ∈ ts, t.Version = v ∧ ∀ p ∈ goList t.Partitions, p.Version = v := by
  induction k generalizing bs ts with
  | zero =>
    simp only [BeginQuorumEpochRequest.decodeTopicsLoop, Prod.mk.injEq] at h
    obtain ⟨h1, h2⟩ := h
    subst h1
    exact ⟨rfl, by simp⟩
  | succ k ih =>
    simp only [BeginQuorumEpochRequest.decodeTopicsLoop] at h
    rcases hd : TopicData_BeginQuorumEpochRequest.goZero.decode v bs with ⟨t1, res⟩
    cases res with
    | error e => simp [hd] at h
    | ok rest1 =>
      simp only [hd] at h
      rcases hr : BeginQuorumEpochRequest.decodeTopicsLoop v k rest1 with ⟨ts1, res1⟩
      rw [hr] at h
      simp only [Prod.mk.injEq] at h
      obtain ⟨h1, h2⟩ := h
      subst h1
      subst h2
      obtain ⟨hlen, hstamp⟩ := ih rest1 ts1 hr
      refine ⟨by simp [hlen], ?_⟩
      intro q hq
      rcases List.mem_cons.mp hq with hq | hq
      · subst hq
        exact topicDecode_ok_facts v bs q rest1 hd
      · exact hstamp q hq

/-- Claim C3: for every byte input that decodes successfully with version
`v`, the decoded message, every decoded topic record and every decoded
partition record report `Version = v`. -/
theorem decode_version_propagation (v : Int) (bs : Bytes)
    (m : BeginQuorumEpochRequest) (rest : Bytes)
    (h : BeginQuorumEpochRequest.goZero.decode v bs = (m, .ok rest)) :
    m.Version = v ∧ ∀ t ∈ goList m.Topics, t.Version = v ∧
      ∀ p ∈ goList t.Partitions, p.Version = v := by
  cases h1 : getNullableString bs with
  | error e => simp [BeginQuorumEpochRequest.decode, h1] at h
  | ok q1 =>
    obtain ⟨cid, bs1⟩ := q1
    cases h2 : getArrayLength bs1 with
    | error e => simp [BeginQuorumEpochRequest.decode, h1, h2] at h
    | ok q2 =>
      obtain ⟨n, bs2⟩ := q2
      by_cases hpos : 0 < n
      · simp only [BeginQuorumEpochRequest.decode, h1, h2, if_pos hpos] at h
        rcases hr : BeginQuorumEpochRequest.decodeTopicsLoop v n.toNat bs2 with ⟨ts1, res1⟩
        rw [hr] at h
        simp only [Prod.mk.injEq] at h
        obtain ⟨ht, hres⟩ := h
        subst hres
        subst ht
        obtain ⟨hlen, hstamp⟩ := decodeTopicsLoop_ok_facts v n.toNat bs2 ts1 rest hr
        refine ⟨rfl, ?_⟩
        simp only [goList, hlen, Nat.sub_self, List.replicate, List.append_nil]
        exact hstamp
      · simp only [BeginQuorumEpochRequest.decode, h1, h2, if_neg hpos] at h
        injection h with ht hres
        subst ht
        exact ⟨rfl, by simp [goList, BeginQuorumEpochRequest.goZero]⟩

/-- Claim C3 witness: a concrete successful decode at version 0 stamps 0
on the message and on each nested record. -/
theorem decode_version_propagation_witness :
    (⟨0, none, some [⟨0, [97], some [⟨0, 3, 7, 42⟩]⟩]⟩ : BeginQuorumEpochRequest).Version = 0 ∧
    ∀ t ∈ goList (⟨0, none, some [⟨0, [97], some [⟨0, 3, 7, 42⟩]⟩]⟩ :
        BeginQuorumEpochRequest).Topics,
      t.Version = 0 ∧ ∀ p ∈ goList t.Partitions, p.Version = 0 :=
  decode_version_propagation 0
    [255, 255, 0, 0, 0, 1, 0, 1, 97, 0, 0, 0, 1, 0, 0, 0, 3, 0, 0, 0, 7, 0, 0, 0, 42]
    ⟨0, none, some [⟨0, [97], some [⟨0, 3, 7, 42⟩]⟩]⟩ [] (by decide)

/-- Claim C2 witness: the concrete bytes of an encoded two-level message
equal the spec layout evaluated on it. -/
theorem encode_emits_spec_body_layout_witness :
    [0, 1, 99, 0, 0, 0, 1, 0, 1, 97, 0, 0, 0, 1, 0, 0, 0, 1, 0, 0, 0, 2, 0, 0, 0, 3] =
      specBodyLayout_v0 ⟨0, some [99], some [⟨0, [97], some [⟨0, 1, 2, 3⟩]⟩]⟩ :=
  encode_emits_spec_body_layout ⟨0, some [99], some [⟨0, [97], some [⟨0, 1, 2, 3⟩]⟩]⟩
    [0, 1, 99, 0, 0, 0, 1, 0, 1, 97, 0, 0, 0, 1, 0, 0, 0, 1, 0, 0, 0, 2, 0, 0, 0, 3]
    (by decide)

/-- Claim C5 amended: in this message family the topic/partition arrays do
not round-trip the absent/empty distinction: whenever a request whose
topic list is empty — nil or present-but-empty alike — encodes
successfully, decoding the bytes leaves the Topics field absent (nil),
never a present list with zero entries.  Only the nullable cluster-id
string keeps the distinction: an encoded request with nil topics and any
cluster id (absent, empty or non-empty) decodes back to exactly that
cluster id. -/
theorem array_null_empty_collapse :
    (∀ (r : BeginQuorumEpochRequest) (bs : Bytes) (v : Int),
      (r.encode).2 = .ok bs → goLen r.Topics = 0 →
      (BeginQuorumEpochRequest.goZero.decode v bs).1.Topics = none) ∧
    (∀ (v : Int) (cid : Option Bytes) (bs : Bytes),
      (BeginQuorumEpochRequest.encode ⟨v, cid, none⟩).2 = .ok bs →
      BeginQuorumEpochRequest.goZero.decode v bs = (⟨v, cid, none⟩, .ok [])) := by
  constructor
  · intro r bs v henc h0
    obtain ⟨mv, cid, topics⟩ := r
    have hgl : goList topics = [] := by
      cases topics with
      | none => rfl
      | some l =>
        cases l with
        | nil => rfl
        | cons x xs => simp [goLen] at h0
    cases hcid : putNullableString cid with
    | error e => simp [BeginQuorumEpochRequest.encode, hcid] at henc
    | ok cidB =>
      cases hal : putArrayLength (goLen topics) with
      | error e => simp [BeginQuorumEpochRequest.encode, hcid, hal] at henc
      | ok lenB =>
        cases hloop : BeginQuorumEpochRequest.encodeTopicsLoop mv (goList topics) with
        | error e => simp [BeginQuorumEpochRequest.encode, hcid, hal, hloop] at henc
        | ok tB =>
          simp only [BeginQuorumEpochRequest.encode, hcid, hal, hloop,
            Except.ok.injEq] at henc
          subst henc
          have hlenB : lenB = putInt32 ((0 : Nat) : Int) := by
            simp only [putArrayLength, h0] at hal
            rw [if_neg (by omega)] at hal
            injection hal with h
            exact h.symm
          have htB : tB = [] := by
            rw [hgl] at hloop
            simp only [BeginQuorumEpochRequest.encodeTopicsLoop,
              Except.ok.injEq] at hloop
            exact hloop.symm
          subst hlenB
          subst htB
          have e1 := getNullableString_putNullableString cid cidB
            (putInt32 ((0 : Nat) : Int) ++ ([] : Bytes)) hcid
          have e2 := getArrayLength_putArrayLength 0 ([] : Bytes) (by omega)
          have hneg : ¬((0 : Int) < ((0 : Nat) : Int)) := by omega
          simp only [List.append_nil, List.append_assoc] at e1 e2 ⊢
          simp only [BeginQuorumEpochRequest.decode, e1, e2, if_neg hneg,
            BeginQuorumEpochRequest.goZero]
  · intro v cid bs henc
    cases hcid : putNullableString cid with
    | error e => simp [BeginQuorumEpochRequest.encode, hcid] at henc
    | ok cidB =>
      simp only [BeginQuorumEpochRequest.encode, hcid, goLen, goList, putArrayLength,
        BeginQuorumEpochRequest.encodeTopicsLoop] at henc
      rw [if_neg (by omega)] at henc
      simp only [Except.ok.injEq] at henc
      subst henc
      have e1 := getNullableString_putNullableString cid cidB
        (putInt32 ((0 : Nat) : Int) ++ ([] : Bytes)) hcid
      have e2 := getArrayLength_putArrayLength 0 ([] : Bytes) (by omega)
      have hneg : ¬((0 : Int) < ((0 : Nat) : Int)) := by omega
      simp only [List.append_nil, List.append_assoc] at e1 e2 ⊢
      simp only [BeginQuorumEpochRequest.decode, e1, e2, if_neg hneg,
        BeginQuorumEpochRequest.goZero]

/-- Claim C5 amended witness: a request with a present-but-empty topic
list encodes and decodes to an absent (nil) topic list, while a
present-but-empty cluster-id string survives the trip distinct from the
absent one. -/
theorem array_null_empty_collapse_witness :
    (BeginQuorumEpochRequest.goZero.decode 7 [255, 255, 0, 0, 0, 0]).1.Topics = none ∧
    BeginQuorumEpochRequest.goZero.decode 7 [0, 0, 0, 0, 0, 0] =
      ((⟨7, some [], none⟩ : BeginQuorumEpochRequest), .ok []) :=
  ⟨array_null_empty_collapse.1 ⟨7, none, some []⟩ [255, 255, 0, 0, 0, 0] 7
      (by decide) (by decide),
   array_null_empty_collapse.2 7 (some []) [0, 0, 0, 0, 0, 0] (by decide)⟩

/-- Claim C7: decoding short-circuits on the first failure.  A failing
partition record makes the partition loop return that same failure at once
with no further records decoded, regardless of how many records were still
requested; a topic whose partition loop fails returns that failure; a
failing topic record aborts the topic loop the same way; and the whole
message decode returns the nested failure unchanged. -/
theorem decode_short_circuits_first_failure :
    (∀ (v : Int) (bs : Bytes) (p : PartitionData_BeginQuorumEpochRequest)
        (e : CodecError) (k : Nat),
      PartitionData_BeginQuorumEpochRequest.goZero.decode v bs = (p, .error e) →
      TopicData_BeginQuorumEpochRequest.decodePartitionsLoop v (k + 1) bs =
        ([], .error e)) ∧
    (∀ (v : Int) (bs name bs1 : Bytes) (n : Int) (bs2 : Bytes) (e : CodecError),
      getString bs = .ok (name, bs1) → getArrayLength bs1 = .ok (n, bs2) → 0 < n →
      (TopicData_BeginQuorumEpochRequest.decodePartitionsLoop v n.toNat bs2).2 = .error e →
      (TopicData_BeginQuorumEpochRequest.goZero.decode v bs).2 = .error e) ∧
    (∀ (v : Int) (bs : Bytes) (t : TopicData_BeginQuorumEpochRequest)
        (e : CodecError) (k : Nat),
      TopicData_BeginQuorumEpochRequest.goZero.decode v bs = (t, .error e) →
      BeginQuorumEpochRequest.decodeTopicsLoop v (k + 1) bs = ([], .error e)) ∧
    (∀ (v : Int) (bs : Bytes) (cid : Option Bytes) (bs1 : Bytes) (n : Int)
        (bs2 : Bytes) (e : CodecError),
      getNullableString bs = .ok (cid, bs1) → getArrayLength bs1 = .ok (n, bs2) → 0 < n →
      (BeginQuorumEpochRequest.decodeTopicsLoop v n.toNat bs2).2 = .error e →
      (BeginQuorumEpochRequest.goZero.decode v bs).2 = .error e) := by
  refine ⟨?_, ?_, ?_, ?_⟩
  · intro v bs p e k h
    simp [TopicData_BeginQuorumEpochRequest.decodePartitionsLoop, h]
  · intro v bs name bs1 n bs2 e hgs hal hpos hloop
    simp only [TopicData_BeginQuorumEpochRequest.decode, hgs, hal, if_pos hpos]
    exact hloop
  · intro v bs t e k h
    simp [BeginQuorumEpochRequest.decodeTopicsLoop, h]
  · intro v bs cid bs1 n bs2 e hgs hal hpos hloop
    simp only [BeginQuorumEpochRequest.decode, hgs, hal, if_pos hpos]
    exact hloop

/-- Claim C7 witness: a partition record truncated after its first int32
propagates `InsufficientData` through the partition loop, the enclosing
topic decode, the topic loop, and the whole message decode. -/
theorem decode_short_circuits_first_failure_witness :
    TopicData_BeginQuorumEpochRequest.decodePartitionsLoop 0 1 [0, 0, 0, 3, 0, 0] =
      ([], .error .InsufficientData) ∧
    (TopicData_BeginQuorumEpochRequest.goZero.decode 0
      [0, 1, 97, 0, 0, 0, 1, 0, 0, 0, 3, 0, 0]).2 = .error .InsufficientData ∧
    BeginQuorumEpochRequest.decodeTopicsLoop 0 1 [0, 1, 97, 0, 0, 0, 1, 0, 0, 0, 3, 0, 0] =
      ([], .error .InsufficientData) ∧
    (BeginQuorumEpochRequest.goZero.decode 0
      [255, 255, 0, 0, 0, 2, 0, 1, 97, 0, 0, 0, 1, 0, 0, 0, 3, 0, 0]).2 =
      .error .InsufficientData :=
  ⟨decode_short_circuits_first_failure.1 0 [0, 0, 0, 3, 0, 0] ⟨0, 3, 0, 0⟩
      .InsufficientData 0 (by decide),
   decode_short_circuits_first_failure.2.1 0 [0, 1, 97, 0, 0, 0, 1, 0, 0, 0, 3, 0, 0]
      [97] [0, 0, 0, 1, 0, 0, 0, 3, 0, 0] 1 [0, 0, 0, 3, 0, 0] .InsufficientData
      (by decide) (by decide) (by decide) (by decide),
   decode_short_circuits_first_failure.2.2.1 0 [0, 1, 97, 0, 0, 0, 1, 0, 0, 0, 3, 0, 0]
      ⟨0, [97], some [⟨0, 0, 0, 0⟩]⟩ .InsufficientData 0 (by decide),
   decode_short_circuits_first_failure.2.2.2 0
      [255, 255, 0, 0, 0, 2, 0, 1, 97, 0, 0, 0, 1, 0, 0, 0, 3, 0, 0] none
      [0, 0, 0, 2, 0, 1, 97, 0, 0, 0, 1, 0, 0, 0, 3, 0, 0] 2
      [0, 1, 97, 0, 0, 0, 1, 0, 0, 0, 3, 0, 0] .InsufficientData
      (by decide) (by decide) (by decide) (by decide)⟩

end Talaria
